import Mathlib

/-!
The schema generator `go-schemagen/storage-miner/schemagen.go`: a shallow
embedding of the program and the properties of its specification.

Representation choices, used throughout:

* a Go `string` is its sequence of characters (`List Char`) and is indexed by
  character, where Go indexes by byte. On ASCII text, as the identifiers of the
  API are, the two agree. On other UTF-8 text the functions below still return
  the strings that the Go functions return: the only slice that is not taken at
  a character boundary is `mn[1:]` in `methodGroupFromName`, and the bytes it
  leaves over from a first character of several bytes do not decode to an
  uppercase letter. `<` is the lexicographic order by code point, which is the
  order that Go's byte-wise comparison gives on UTF-8 text;
* a Go `map[string]T` is an association list with one pair per key
  (`GoMap T`); assignment replaces the value of a present key and appends an
  absent one; the order in which `range` visits a map is unspecified in Go and
  is an explicit parameter wherever the program ranges over a map;
* a run-time panic is the result `none`;
* the Unicode property tables of Go's `unicode` package are a parameter
  (`UnicodeTables`); the ASCII part of the predicates is written out.
-/

namespace Schemagen

/-- Go `string`: the sequence of its characters. -/
abbrev GoString := List Char

/-- Go `map[string]β`: key/value pairs, one pair per key. -/
abbrev GoMap (β : Type) := List (GoString × β)

namespace GoMap

/-- The comma-ok lookup `v, ok := m[k]`. -/
def get {β : Type} (m : GoMap β) (k : GoString) : Option β :=
  match m with
  | [] => none
  | (k', v) :: rest => if k' = k then some v else get rest k

/-- The assignment `m[k] = v`. -/
def set {β : Type} (m : GoMap β) (k : GoString) (v : β) : GoMap β :=
  match m with
  | [] => [(k, v)]
  | (k', v') :: rest => if k' = k then (k', v) :: rest else (k', v') :: set rest k v

/-- The plain index expression `m[k]` on a map of strings: the zero value `""`
for an absent key. -/
def index (m : GoMap GoString) (k : GoString) : GoString :=
  match get m k with
  | some v => v
  | none => []

/-- The keys of a map. -/
def keys {β : Type} (m : GoMap β) : List GoString := m.map Prod.fst

/-- The values of a map. -/
def values {β : Type} (m : GoMap β) : List β := m.map Prod.snd

end GoMap

/-- The range tables of Go's `unicode` package that the program consults
(through `unicode.IsUpper` and `strings.TrimSpace`); they are consulted for
characters beyond ASCII only. -/
structure UnicodeTables where
  Upper : Char → Bool
  White_Space : Char → Bool

/-- The tables cut off after Latin-1: enough to evaluate the functions on
Latin-1 text. -/
def latin1Tables : UnicodeTables where
  Upper := fun r => (0xC0 ≤ r.toNat && r.toNat ≤ 0xD6) || (0xD8 ≤ r.toNat && r.toNat ≤ 0xDE)
  White_Space := fun r => r.toNat == 0x85 || r.toNat == 0xA0

namespace unicode

/-- Go `unicode.IsUpper`: on ASCII the letters `A` to `Z`, beyond ASCII the
table `Upper`. -/
def IsUpper (tbl : UnicodeTables) (r : Char) : Bool :=
  if r.toNat < 0x80 then decide (65 ≤ r.toNat ∧ r.toNat ≤ 90) else tbl.Upper r

/-- Go `unicode.IsSpace`: on ASCII `\t`, `\n`, `\v`, `\f`, `\r` and the space,
beyond ASCII the table `White_Space`. -/
def IsSpace (tbl : UnicodeTables) (r : Char) : Bool :=
  if r.toNat < 0x80 then decide ((9 ≤ r.toNat ∧ r.toNat ≤ 13) ∨ r.toNat = 32)
  else tbl.White_Space r

end unicode

namespace strings

/-- Go `strings.IndexFunc(s, f)`: the index of the first character of `s`
satisfying `f`, or `-1` if none does. -/
def IndexFunc (s : GoString) (f : Char → Bool) : Int :=
  match s with
  | [] => -1
  | c :: cs =>
    if f c then 0
    else
      let i := IndexFunc cs f
      if i < 0 then -1 else i + 1

/-- Go `strings.HasPrefix(s, p)`. -/
def HasPrefix (s p : GoString) : Bool :=
  match p, s with
  | [], _ => true
  | _ :: _, [] => false
  | b :: p', a :: s' => a == b && HasPrefix s' p'

/-- Go `strings.Split(s, sep)` for a separator of one character: the pieces of
`s` between the separators; never an empty slice. -/
def Split (s : GoString) (sep : Char) : List GoString :=
  match s with
  | [] => [[]]
  | c :: cs =>
    if c = sep then [] :: Split cs sep
    else
      match Split cs sep with
      | [] => [[c]]
      | p :: ps => (c :: p) :: ps

/-- Go `strings.Join(elems, sep)`. -/
def Join (elems : List GoString) (sep : GoString) : GoString :=
  match elems with
  | [] => []
  | [e] => e
  | e :: rest => e ++ sep ++ Join rest sep

/-- Go `strings.TrimSpace(s)`: `s` without its leading and trailing white
space. -/
def TrimSpace (tbl : UnicodeTables) (s : GoString) : GoString :=
  ((s.dropWhile (unicode.IsSpace tbl)).reverse.dropWhile (unicode.IsSpace tbl)).reverse

end strings

namespace sort

/-- Go `sort.Slice(x, less)`: `x` sorted by `less`. The library's algorithm is
not stable; the model is insertion sort. Both call sites of the program sort on
a key for which elements with equal keys are equal (`GroupsInv.equal_keys`), and
on such a slice every sorting algorithm returns the same result
(`sorted_perm_unique`). -/
def Slice {α : Type} (x : List α) (less : α → α → Bool) : List α :=
  x.insertionSort (fun a b => less b a = false)

end sort

/-! ## Syntax tree (lines 84-108) -/

/-- Go `ast.Field` of an interface's method list: a method has one name, an
embedded interface has none. `Typ` is the field's type (`Type` in Go) as source
text. -/
structure Field where
  Names : List GoString
  Typ : GoString
deriving DecidableEq, Repr

/-- Go `ast.Expr` as far as `Visit` distinguishes it: an interface type with
its method list, or any other type expression. -/
inductive Expr where
  | InterfaceType (Methods : List Field)
  | Other (src : GoString)
deriving DecidableEq, Repr

/-- Go `ast.Node` as far as `Visit` distinguishes it: a type declaration
(`*ast.TypeSpec`) or any other node (the `nil` node included). -/
inductive Node where
  | TypeSpec (Name : GoString) (Typ : Expr)
  | Other
deriving DecidableEq, Repr

/-- Type `Visitor` (line 84). The nodes stored are the method fields. -/
structure Visitor where
  Methods : GoMap Field
deriving DecidableEq, Repr

/-- The outcome of a call of `Visit`: the visitor after the call and the
returned `ast.Visitor`, `some` for `return v` and `none` for `return nil`. -/
structure VisitResult where
  state : Visitor
  ret : Option Visitor
deriving DecidableEq, Repr

/-- The loop of lines 101-105. -/
def collectMethods (methods : GoMap Field) (list : List Field) : GoMap Field :=
  match list with
  | [] => methods
  | m :: rest =>
    match m.Names with
    | [] => collectMethods methods rest
    | n :: _ => collectMethods (GoMap.set methods n m) rest

/-- Method `Visitor.Visit` (lines 88-108); `none` is the panic of the type
assertion of line 100. -/
def Visitor.Visit (v : Visitor) (node : Node) : Option VisitResult :=
  match node with
  | Node.Other => some { state := v, ret := some v }
  | Node.TypeSpec name type =>
    if name ≠ "StorageMiner".toList then some { state := v, ret := none }
    else
      match type with
      | Expr.Other _ => none
      | Expr.InterfaceType list =>
        let v' : Visitor := { Methods := collectMethods v.Methods list }
        some { state := v', ret := some v' }

/-! ## Comments (lines 110-159) -/

/-- Constant `noComment` (line 110). -/
def noComment : GoString := "There are not yet any comments for this method.".toList

/-- The marker `"MethodGroup:"` of lines 140 and 151. -/
def groupMarker : GoString := "MethodGroup:".toList

/-- The loop of lines 139-148 over the comments of one method: the first
comment that starts with the marker sets the group's description and ends the
loop. `parts[0][12:]` does not panic there: `Split` returns at least one piece,
and the first piece of a text that starts with the marker contains the marker,
which has 12 characters. -/
def scanGroupDocs (tbl : UnicodeTables) (groupDocs : GoMap GoString) (cs : List GoString) :
    GoMap GoString :=
  match cs with
  | [] => groupDocs
  | c :: rest =>
    if strings.HasPrefix c groupMarker then
      let parts := strings.Split c '\n'
      let groupName := strings.TrimSpace tbl ((parts.headD []).drop 12)
      let comment := strings.Join parts.tail "\n".toList
      GoMap.set groupDocs groupName comment
    else scanGroupDocs tbl groupDocs rest

/-- The comment assigned to `out[mn]` by lines 136-155. -/
def methodComment (cs : List GoString) : GoString :=
  match cs.getLast? with
  | none => noComment
  | some last => if !strings.HasPrefix last groupMarker then last else noComment

/-- The body of the loop of lines 134-157 for the method `mn` whose comments
have the texts `cs`. -/
def parseMethod (tbl : UnicodeTables) (st : GoMap GoString × GoMap GoString)
    (mn : GoString) (cs : List GoString) : GoMap GoString × GoMap GoString :=
  match cs with
  | [] => (GoMap.set st.1 mn noComment, st.2)
  | _ :: _ => (GoMap.set st.1 mn (methodComment cs), scanGroupDocs tbl st.2 cs)

/-- Function `parseApiASTInfo` (lines 112-159) from the loop of line 134 on.
`cmap node` is the list of the texts of `cmap.Filter(node).Comments()`, and
`methods` lists the entries of `v.Methods` in the order in which `range`
visits them. The results are `out` and `groupDocs`. -/
def parseApiASTInfo (tbl : UnicodeTables) (cmap : Field → List GoString)
    (methods : List (GoString × Field)) : GoMap GoString × GoMap GoString :=
  methods.foldl (fun st e => parseMethod tbl st e.1 (cmap e.2)) ([], [])

/-! ## Grouping and output (lines 161-276) -/

/-- Type `Method` (line 167). -/
structure Method where
  Comment : GoString
  Name : GoString
deriving DecidableEq, Repr

/-- Type `MethodGroup` (line 161). -/
structure MethodGroup where
  GroupName : GoString
  Header : GoString
  Methods : List Method
deriving DecidableEq, Repr

/-- Function `methodGroupFromName` (lines 176-184); `none` is the panic of
`mn[1:]` on the empty string. -/
def methodGroupFromName (tbl : UnicodeTables) (mn : GoString) : Option GoString :=
  match mn with
  | [] => none
  | _ :: rest =>
    let i := strings.IndexFunc rest (unicode.IsUpper tbl)
    if i < 0 then some []
    else some (mn.take (i + 1).toNat)

/-- A `record` of line 258, a `map[string]interface{}`; the only values the
program stores are booleans. -/
abbrev Record := GoMap Bool

instance instDecidableEqRecord : DecidableEq Record :=
  inferInstanceAs (DecidableEq (List (GoString × Bool)))

/-- The body of the loop of lines 196-236 for the method named `name`. -/
def addMethod (tbl : UnicodeTables) (comments groupComments : GoMap GoString)
    (groups : GoMap MethodGroup) (name : GoString) : Option (GoMap MethodGroup) :=
  match methodGroupFromName tbl name with
  | none => none
  | some groupName =>
    let g : MethodGroup :=
      match GoMap.get groups groupName with
      | some g => g
      | none =>
        { GroupName := groupName, Header := GoMap.index groupComments groupName, Methods := [] }
    let m : Method := { Name := name, Comment := GoMap.index comments name }
    some (GoMap.set groups groupName { g with Methods := g.Methods ++ [m] })

/-- The loop of lines 196-236 over the enumerated method names. -/
def buildGroups (tbl : UnicodeTables) (comments groupComments : GoMap GoString)
    (groups : GoMap MethodGroup) (names : List GoString) : Option (GoMap MethodGroup) :=
  match names with
  | [] => some groups
  | name :: rest =>
    match addMethod tbl comments groupComments groups name with
    | none => none
    | some groups' => buildGroups tbl comments groupComments groups' rest

/-- The record of lines 258-261 for the method named `name`. -/
def makeRecord (name : GoString) : Record :=
  if name = "ChainNotify".toList then GoMap.set [] "subscription".toList true else []

/-- The loop of lines 256-268 over the methods of one group. -/
def emitMethods (methods : GoMap Record) (ms : List Method) : GoMap Record :=
  match ms with
  | [] => methods
  | m :: rest => emitMethods (GoMap.set methods m.Name (makeRecord m.Name)) rest

/-- The loop of lines 248-270 over the sorted groups: each group's methods are
sorted in place and then emitted. The result is the slice of groups after the
loop and the map `methods`. -/
def emitGroups (methods : GoMap Record) (groupslice : List MethodGroup) :
    List MethodGroup × GoMap Record :=
  match groupslice with
  | [] => ([], methods)
  | g :: rest =>
    let ms := sort.Slice g.Methods (fun a b => decide (a.Name < b.Name))
    let r := emitGroups (emitMethods methods ms) rest
    ({ g with Methods := ms } :: r.1, r.2)

/-- Function `main` (lines 186-276) up to the serialisation. `comments` and
`groupComments` are the results of `parseApiASTInfo` (line 188), `names` the
names `t.Method(i).Name` in the order of the enumeration, and `rangeOrder` the
order in which `range groups` (line 239) visits the groups. The result is the
slice of groups after the last loop and the map `methods` that is marshalled. -/
def main (tbl : UnicodeTables) (rangeOrder : List MethodGroup → List MethodGroup)
    (comments groupComments : GoMap GoString) (names : List GoString) :
    Option (List MethodGroup × GoMap Record) :=
  match buildGroups tbl comments groupComments [] names with
  | none => none
  | some groups =>
    let groupslice := rangeOrder (GoMap.values groups)
    let groupslice := sort.Slice groupslice (fun a b => decide (a.GroupName < b.GroupName))
    some (emitGroups [] groupslice)

/-! ## Auxiliary definitions for the proofs -/

/-- The names of all methods in all groups, group by group. -/
def groupedNames (groups : List MethodGroup) : List GoString :=
  groups.flatMap (fun g => g.Methods.map Method.Name)

/-- The group to which `addMethod` appends: the present one, or a fresh one. -/
def groupFor (groupComments : GoMap GoString) (groups : GoMap MethodGroup)
    (groupName : GoString) : MethodGroup :=
  match GoMap.get groups groupName with
  | some g => g
  | none =>
    { GroupName := groupName, Header := GoMap.index groupComments groupName, Methods := [] }

/-- The invariant of the loop of lines 196-236, after the names `processed`. -/
structure GroupsInv (tbl : UnicodeTables) (comments : GoMap GoString)
    (groups : GoMap MethodGroup) (processed : List GoString) : Prop where
  nodup : (GoMap.keys groups).Nodup
  name : ∀ e ∈ groups, e.2.GroupName = e.1
  member : ∀ e ∈ groups, ∀ m ∈ e.2.Methods,
    methodGroupFromName tbl m.Name = some e.1 ∧ m.Comment = GoMap.index comments m.Name
  perm : (groupedNames (GoMap.values groups)).Perm processed

/-- The mapping built directly from the names, without grouping or sorting: one
assignment per name, `{"subscription": true}` for `"ChainNotify"` and the empty
object for every other name. -/
def directMapping (names : List GoString) : GoMap Record :=
  names.foldl (fun methods n =>
    GoMap.set methods n
      (if n = "ChainNotify".toList then [("subscription".toList, true)] else [])) []

/-- The order in which `json.Marshal` (line 271) writes the entries of the map:
sorted by key. -/
def marshalOrder (methods : GoMap Record) : List (GoString × Record) :=
  sort.Slice methods (fun a b => decide (a.1 < b.1))

/-! ## Maps -/

theorem GoMap.get_set {β : Type} (m : GoMap β) (k k' : GoString) (v : β) :
    GoMap.get (GoMap.set m k v) k' = if k = k' then some v else GoMap.get m k' := by
  induction m with
  | nil => simp [GoMap.set, GoMap.get]
  | cons e rest ih =>
    obtain ⟨k0, v0⟩ := e
    by_cases h0 : k0 = k
    · subst h0
      by_cases h1 : k0 = k' <;> simp [GoMap.set, GoMap.get, h1]
    · by_cases h1 : k0 = k'
      · subst h1
        have : ¬ k = k0 := fun h => h0 h.symm
        simp [GoMap.set, GoMap.get, h0, this]
      · simp [GoMap.set, GoMap.get, h0, h1, ih]

theorem GoMap.keys_set {β : Type} (m : GoMap β) (k : GoString) (v : β) :
    GoMap.keys (GoMap.set m k v) =
      if k ∈ GoMap.keys m then GoMap.keys m else GoMap.keys m ++ [k] := by
  induction m with
  | nil => simp [GoMap.set, GoMap.keys]
  | cons e rest ih =>
    obtain ⟨k0, v0⟩ := e
    by_cases h0 : k0 = k
    · subst h0
      simp only [GoMap.set, GoMap.keys, if_true, List.map_cons, List.mem_cons, true_or]
    · have h0' : ¬ k = k0 := fun h => h0 h.symm
      simp only [GoMap.keys] at ih
      by_cases h1 : k ∈ List.map Prod.fst rest
      · simp [GoMap.set, GoMap.keys, h0, h1, ih]
      · simp [GoMap.set, GoMap.keys, h0, h0', h1, ih]

theorem GoMap.mem_keys_set {β : Type} (m : GoMap β) (k k' : GoString) (v : β) :
    k' ∈ GoMap.keys (GoMap.set m k v) ↔ k' = k ∨ k' ∈ GoMap.keys m := by
  rw [GoMap.keys_set]
  by_cases h : k ∈ GoMap.keys m
  · simp only [h, if_true]
    constructor
    · exact fun h' => Or.inr h'
    · rintro (rfl | h')
      · exact h
      · exact h'
  · simp only [h, if_false, List.mem_append, List.mem_singleton]
    tauto

theorem GoMap.nodup_keys_set {β : Type} (m : GoMap β) (k : GoString) (v : β)
    (h : (GoMap.keys m).Nodup) : (GoMap.keys (GoMap.set m k v)).Nodup := by
  rw [GoMap.keys_set]
  by_cases hk : k ∈ GoMap.keys m
  · simpa [hk] using h
  · simp only [hk, if_false]
    refine List.Nodup.append h (List.nodup_singleton k) ?_
    intro a ha hb
    rw [List.mem_singleton] at hb
    exact hk (hb ▸ ha)

theorem GoMap.get_eq_none_iff {β : Type} (m : GoMap β) (k : GoString) :
    GoMap.get m k = none ↔ k ∉ GoMap.keys m := by
  induction m with
  | nil => simp [GoMap.get, GoMap.keys]
  | cons e rest ih =>
    obtain ⟨k0, v0⟩ := e
    simp only [GoMap.keys] at ih
    by_cases h0 : k0 = k
    · subst h0
      simp only [GoMap.get, GoMap.keys, if_true, List.map_cons, List.mem_cons, true_or,
        not_true_eq_false, reduceCtorEq]
    · have h0' : ¬ k = k0 := fun h => h0 h.symm
      simp only [GoMap.get, GoMap.keys, h0, h0', if_false, List.map_cons, List.mem_cons,
        false_or, ih]

theorem GoMap.mem_of_get {β : Type} (m : GoMap β) (k : GoString) (v : β)
    (h : GoMap.get m k = some v) : (k, v) ∈ m := by
  induction m with
  | nil => simp [GoMap.get] at h
  | cons e rest ih =>
    obtain ⟨k0, v0⟩ := e
    by_cases h0 : k0 = k
    · simp [GoMap.get, h0] at h
      simp [h0, h]
    · simp [GoMap.get, h0] at h
      exact List.mem_cons_of_mem _ (ih h)

theorem GoMap.get_of_mem {β : Type} (m : GoMap β) (k : GoString) (v : β)
    (hnd : (GoMap.keys m).Nodup) (h : (k, v) ∈ m) : GoMap.get m k = some v := by
  induction m with
  | nil => simp at h
  | cons e rest ih =>
    obtain ⟨k0, v0⟩ := e
    simp only [GoMap.keys, List.map_cons, List.nodup_cons] at hnd
    rcases List.mem_cons.1 h with h1 | h1
    · injection h1 with h2 h3
      simp [GoMap.get, h2, h3]
    · have hne : ¬ k0 = k := by
        intro h2
        apply hnd.1
        rw [h2]
        exact List.mem_map_of_mem Prod.fst h1
      simp only [GoMap.get, hne, if_false]
      exact ih hnd.2 h1

/-! ## `methodGroupFromName` -/

theorem strings.IndexFunc_ge (s : GoString) (f : Char → Bool) : -1 ≤ strings.IndexFunc s f := by
  induction s with
  | nil => simp [strings.IndexFunc]
  | cons c cs ih =>
    simp only [strings.IndexFunc]
    split_ifs <;> omega

theorem strings.IndexFunc_neg_iff (s : GoString) (f : Char → Bool) :
    strings.IndexFunc s f < 0 ↔ ∀ c ∈ s, f c = false := by
  induction s with
  | nil => simp [strings.IndexFunc]
  | cons c cs ih =>
    have hge := strings.IndexFunc_ge cs f
    simp only [strings.IndexFunc, List.mem_cons, forall_eq_or_imp]
    by_cases hc : f c = true
    · simp [hc]
    · simp only [hc, if_false]
      rw [← ih]
      simp only [Bool.not_eq_true] at hc
      by_cases hi : strings.IndexFunc cs f < 0
      · simp [hi, hc]
      · simp only [hi, if_false, hc, true_and, iff_false]
        omega

theorem strings.IndexFunc_first (s : GoString) (f : Char → Bool) (pre post : GoString) (u : Char)
    (hs : s = pre ++ u :: post) (hpre : ∀ c ∈ pre, f c = false) (hu : f u = true) :
    strings.IndexFunc s f = (pre.length : Int) := by
  subst hs
  induction pre with
  | nil => simp [strings.IndexFunc, hu]
  | cons c cs ih =>
    have hc : f c = false := hpre c (List.mem_cons_self _ _)
    have ih' := ih (fun x hx => hpre x (List.mem_cons_of_mem _ hx))
    simp only [List.cons_append, strings.IndexFunc, hc, ih']
    simp
    omega

theorem methodGroupFromName_first (tbl : UnicodeTables) (first : Char) (pre post : GoString)
    (u : Char) (hpre : ∀ c ∈ pre, unicode.IsUpper tbl c = false)
    (hu : unicode.IsUpper tbl u = true) :
    methodGroupFromName tbl (first :: (pre ++ u :: post)) = some (first :: pre) := by
  have h := strings.IndexFunc_first (pre ++ u :: post) (unicode.IsUpper tbl) pre post u rfl hpre hu
  simp only [methodGroupFromName, h]
  have h1 : ¬ ((pre.length : Int) < 0) := by omega
  have h2 : ((pre.length : Int) + 1).toNat = pre.length + 1 := by omega
  simp [h1, h2]

theorem methodGroupFromName_returns (tbl : UnicodeTables) (mn : GoString) (h : mn ≠ []) :
    ∃ g, methodGroupFromName tbl mn = some g := by
  cases mn with
  | nil => exact absurd rfl h
  | cons a rest =>
    simp only [methodGroupFromName]
    split_ifs
    · exact ⟨_, rfl⟩
    · exact ⟨_, rfl⟩

theorem methodGroupFromName_eq_nil_iff (tbl : UnicodeTables) (mn : GoString) (h : mn ≠ []) :
    methodGroupFromName tbl mn = some [] ↔ ∀ c ∈ mn.tail, unicode.IsUpper tbl c = false := by
  cases mn with
  | nil => exact absurd rfl h
  | cons a rest =>
    rw [← strings.IndexFunc_neg_iff]
    simp only [methodGroupFromName, List.tail_cons]
    have hge := strings.IndexFunc_ge rest (unicode.IsUpper tbl)
    by_cases hi : strings.IndexFunc rest (unicode.IsUpper tbl) < 0
    · simp [hi]
    · simp only [hi, if_false, iff_false]
      intro hh
      have hlen := congrArg List.length (Option.some.inj hh)
      cases hn : (strings.IndexFunc rest (unicode.IsUpper tbl) + 1).toNat with
      | zero => omega
      | succ n => rw [hn] at hlen; simp at hlen

/-- C3. For a non-empty name, `methodGroupFromName` returns; the result is the
empty string exactly if no character after the first is an uppercase letter;
and if `u` is the first uppercase letter after the first character, the result
is the non-empty prefix that ends just before `u`. `"GetThing"` gives `"Get"`
and `"Version"` gives `""`. -/
theorem methodGroupFromName_spec (tbl : UnicodeTables) (mn : GoString) (h : mn ≠ []) :
    (∃ g, methodGroupFromName tbl mn = some g) ∧
    (methodGroupFromName tbl mn = some [] ↔ ∀ c ∈ mn.tail, unicode.IsUpper tbl c = false) ∧
    (∀ (first : Char) (pre post : GoString) (u : Char), mn = first :: (pre ++ u :: post) →
      (∀ c ∈ pre, unicode.IsUpper tbl c = false) → unicode.IsUpper tbl u = true →
      methodGroupFromName tbl mn = some (first :: pre) ∧ first :: pre ≠ [] ∧
        first :: pre ++ u :: post = mn) ∧
    methodGroupFromName tbl "GetThing".toList = some "Get".toList ∧
    methodGroupFromName tbl "Version".toList = some "".toList := by
  refine ⟨methodGroupFromName_returns tbl mn h, methodGroupFromName_eq_nil_iff tbl mn h,
    ?_, rfl, rfl⟩
  intro first pre post u hmn hpre hu
  subst hmn
  exact ⟨methodGroupFromName_first tbl first pre post u hpre hu, by simp, by simp⟩

/-- Witness of `methodGroupFromName_spec`, at the name `"GetInfo"`. -/
theorem methodGroupFromName_spec_witness :
    "GetInfo".toList ≠ [] ∧
    methodGroupFromName latin1Tables "GetInfo".toList = some "Get".toList :=
  ⟨by decide,
   ((methodGroupFromName_spec latin1Tables "GetInfo".toList (by decide)).2.2.1
      'G' "et".toList "nfo".toList 'I' rfl (by decide) (by decide)).1⟩

theorem strings.IndexFunc_at (s : GoString) (f : Char → Bool) (i : Nat) (u : Char)
    (hu : s[i]? = some u) (hf : f u = true)
    (hfirst : ∀ (j : Nat) (c : Char), j < i → s[j]? = some c → f c = false) :
    strings.IndexFunc s f = (i : Int) := by
  induction s generalizing i with
  | nil => simp at hu
  | cons a rest ih =>
    cases i with
    | zero =>
      simp only [List.getElem?_cons_zero, Option.some.injEq] at hu
      subst hu
      simp [strings.IndexFunc, hf]
    | succ n =>
      have ha : f a = false := hfirst 0 a (Nat.succ_pos n) (by simp)
      have hrest := ih n (by simpa using hu)
        (fun j c hj hc => hfirst (j + 1) c (by omega) (by simpa using hc))
      simp only [strings.IndexFunc, ha, hrest]
      simp

/-- C8, as the code has it. If `u` is the first uppercase letter after the
first character of the name and stands at index `i`, the group name is the
prefix of length `i`: it ends just before the boundary character `u` and does
not include it. -/
theorem methodGroupFromName_before_boundary (tbl : UnicodeTables) (mn : GoString) (i : Nat)
    (u : Char) (h1 : 1 ≤ i) (hu : mn[i]? = some u) (hup : unicode.IsUpper tbl u = true)
    (hfirst : ∀ (j : Nat) (c : Char), 1 ≤ j → j < i → mn[j]? = some c →
      unicode.IsUpper tbl c = false) :
    methodGroupFromName tbl mn = some (mn.take i) ∧ (mn.take i).length = i ∧
      (mn.take i ++ u :: mn.drop (i + 1) = mn) ∧ mn.take i ≠ mn.take (i + 1) := by
  have hlt : i < mn.length := by
    by_contra hge
    rw [List.getElem?_eq_none (by omega)] at hu
    exact Option.noConfusion hu
  have hlen : (mn.take i).length = i := by
    rw [List.length_take]; omega
  have hlen' : (mn.take (i + 1)).length = i + 1 := by
    rw [List.length_take]; omega
  refine ⟨?_, hlen, ?_, ?_⟩
  · cases mn with
    | nil => simp at hlt
    | cons a rest =>
      obtain ⟨n, rfl⟩ : ∃ n, i = n + 1 := ⟨i - 1, by omega⟩
      have hidx := strings.IndexFunc_at rest (unicode.IsUpper tbl) n u (by simpa using hu) hup
        (fun j c hj hc => hfirst (j + 1) c (by omega) (by omega) (by simpa using hc))
      simp only [methodGroupFromName, hidx]
      have h2 : ¬ ((n : Int) < 0) := by omega
      have h3 : ((n : Int) + 1).toNat = n + 1 := by omega
      simp [h2, h3]
  · have hget : mn[i] = u := by
      have := List.getElem?_eq_getElem hlt
      rw [this] at hu
      exact Option.some.inj hu
    rw [← hget, ← List.drop_eq_getElem_cons hlt]
    exact List.take_append_drop i mn
  · intro heq
    have := congrArg List.length heq
    omega

/-- Witness of `methodGroupFromName_before_boundary`, at the name `"GetThing"`
with the boundary character `T` at index 3. -/
theorem methodGroupFromName_before_boundary_witness :
    methodGroupFromName latin1Tables "GetThing".toList = some "Get".toList :=
  (methodGroupFromName_before_boundary latin1Tables "GetThing".toList 3 'T' (by decide)
    (by decide) (by decide)
    (fun j c hj hlt hc => by
      have hj' : j = 1 ∨ j = 2 := by omega
      rcases hj' with rfl | rfl
      · have : c = 'e' := by simpa using hc.symm
        subst this; decide
      · have : c = 't' := by simpa using hc.symm
        subst this; decide)).1

/-- C8, as stated, fails on the name `"GetThing"`: the first uppercase letter
after the first character is `T`, at index 3, the prefix up to and including it
is `"GetT"`, and `methodGroupFromName` returns `"Get"`. -/
theorem methodGroupFromName_boundary_counterexample :
    "GetThing".toList[3]? = some 'T' ∧ unicode.IsUpper latin1Tables 'T' = true ∧
    (∀ c ∈ ("GetThing".toList.take 3).tail, unicode.IsUpper latin1Tables c = false) ∧
    "GetThing".toList.take (3 + 1) = "GetT".toList ∧
    methodGroupFromName latin1Tables "GetThing".toList = some "Get".toList ∧
    methodGroupFromName latin1Tables "GetThing".toList ≠
      some ("GetThing".toList.take (3 + 1)) := by
  decide

/-! ## `Visitor.Visit` -/

theorem collectMethods_get (methods : GoMap Field) (list : List Field) (k : GoString) :
    GoMap.get (collectMethods methods list) k =
      match list.reverse.find? (fun m => decide (m.Names.head? = some k)) with
      | some m => some m
      | none => GoMap.get methods k := by
  induction list generalizing methods with
  | nil => simp [collectMethods]
  | cons m rest ih =>
    simp only [List.reverse_cons, List.find?_append]
    cases hN : m.Names with
    | nil =>
      simp only [collectMethods, hN]
      rw [ih]
      cases rest.reverse.find? (fun m => decide (m.Names.head? = some k)) with
      | none => simp [hN]
      | some x => simp
    | cons n ns =>
      simp only [collectMethods, hN]
      rw [ih, GoMap.get_set]
      cases rest.reverse.find? (fun m => decide (m.Names.head? = some k)) with
      | none =>
        by_cases hnk : n = k
        · simp [hN, hnk]
        · simp [hN, hnk]
      | some x => simp

theorem collectMethods_keys (methods : GoMap Field) (list : List Field) (k : GoString) :
    k ∈ GoMap.keys (collectMethods methods list) ↔
      k ∈ GoMap.keys methods ∨ ∃ m ∈ list, m.Names.head? = some k := by
  induction list generalizing methods with
  | nil => simp [collectMethods]
  | cons m rest ih =>
    cases hN : m.Names with
    | nil =>
      simp only [collectMethods, hN]
      rw [ih]
      simp [hN]
    | cons n ns =>
      simp only [collectMethods, hN]
      rw [ih, GoMap.mem_keys_set]
      simp only [List.mem_cons, exists_eq_or_imp, hN, List.head?_cons, Option.some.injEq]
      constructor
      · rintro ((h | h) | h)
        · exact Or.inr (Or.inl h.symm)
        · exact Or.inl h
        · exact Or.inr (Or.inr h)
      · rintro (h | h | h)
        · exact Or.inl (Or.inr h)
        · exact Or.inl (Or.inl h.symm)
        · exact Or.inr h

theorem collectMethods_nodup (methods : GoMap Field) (list : List Field)
    (h : (GoMap.keys methods).Nodup) : (GoMap.keys (collectMethods methods list)).Nodup := by
  induction list generalizing methods with
  | nil => simpa [collectMethods] using h
  | cons m rest ih =>
    cases hN : m.Names with
    | nil =>
      simp only [collectMethods, hN]
      exact ih methods h
    | cons n ns =>
      simp only [collectMethods, hN]
      exact ih _ (GoMap.nodup_keys_set methods n m h)

theorem collectMethods_get_of_mem (methods : GoMap Field) (list : List Field)
    (hnd : (list.filterMap (fun m => m.Names.head?)).Nodup) (m : Field) (hm : m ∈ list)
    (n : GoString) (hn : m.Names.head? = some n) :
    GoMap.get (collectMethods methods list) n = some m := by
  induction list generalizing methods with
  | nil => simp at hm
  | cons m0 rest ih =>
    cases hN : m0.Names with
    | nil =>
      have hnd' : (rest.filterMap (fun m => m.Names.head?)).Nodup := by
        simpa [List.filterMap_cons, hN] using hnd
      rcases List.mem_cons.1 hm with h | h
      · subst h
        simp [hN] at hn
      · simp only [collectMethods, hN]
        exact ih methods hnd' h
    | cons n0 ns =>
      have hnd' : n0 ∉ rest.filterMap (fun m => m.Names.head?) ∧
          (rest.filterMap (fun m => m.Names.head?)).Nodup := by
        simpa [List.filterMap_cons, hN] using hnd
      simp only [collectMethods, hN]
      by_cases hmem : m ∈ rest
      · exact ih _ hnd'.2 hmem
      · have hm0 : m = m0 := by
          rcases List.mem_cons.1 hm with h | h
          · exact h
          · exact absurd h hmem
        subst hm0
        have hn0 : n0 = n := by simpa [hN] using hn
        subst hn0
        rw [collectMethods_get]
        have hnone : rest.reverse.find? (fun x => decide (x.Names.head? = some n0)) = none := by
          rw [List.find?_eq_none]
          intro x hx
          have hx' : x ∈ rest := List.mem_reverse.1 hx
          simp only [decide_eq_true_eq]
          intro hxn
          exact hnd'.1 (List.mem_filterMap.2 ⟨x, hx', hxn⟩)
        rw [hnone]
        simp [GoMap.get_set]

/-- C10, as the code has it. On a type declaration named `"StorageMiner"` whose
type is an interface, `Visit` stores every method field that has a name under
its first name (a field without names, an embedded interface, adds nothing; the
keys stay distinct; with distinct method names every named method is mapped to
its own node) and returns the visitor itself, so that the traversal continues
into the children of the node. On a type declaration with any other name it
returns `nil` and leaves `Methods` unchanged. On any other node it leaves
`Methods` unchanged and returns the visitor itself. -/
theorem Visit_spec (v : Visitor) :
    (∀ list : List Field,
      ∃ v' : Visitor,
        v.Visit (Node.TypeSpec "StorageMiner".toList (Expr.InterfaceType list)) =
          some { state := v', ret := some v' } ∧
        (∀ k, k ∈ GoMap.keys v'.Methods ↔
          k ∈ GoMap.keys v.Methods ∨ ∃ m ∈ list, m.Names.head? = some k) ∧
        (∀ k, (∀ m ∈ list, m.Names.head? ≠ some k) →
          GoMap.get v'.Methods k = GoMap.get v.Methods k) ∧
        (∀ k, (∃ m ∈ list, m.Names.head? = some k) →
          ∃ m ∈ list, m.Names.head? = some k ∧ GoMap.get v'.Methods k = some m) ∧
        ((list.filterMap (fun m => m.Names.head?)).Nodup →
          ∀ m ∈ list, ∀ n, m.Names.head? = some n → GoMap.get v'.Methods n = some m) ∧
        ((GoMap.keys v.Methods).Nodup → (GoMap.keys v'.Methods).Nodup)) ∧
    (∀ (name : GoString) (typ : Expr), name ≠ "StorageMiner".toList →
      v.Visit (Node.TypeSpec name typ) = some { state := v, ret := none }) ∧
    v.Visit Node.Other = some { state := v, ret := some v } := by
  refine ⟨?_, ?_, rfl⟩
  · intro list
    refine ⟨{ Methods := collectMethods v.Methods list }, ?_, ?_, ?_, ?_, ?_, ?_⟩
    · simp [Visitor.Visit]
    · exact fun k => collectMethods_keys v.Methods list k
    · intro k hk
      show GoMap.get (collectMethods v.Methods list) k = _
      rw [collectMethods_get]
      have hnone : list.reverse.find? (fun x => decide (x.Names.head? = some k)) = none := by
        rw [List.find?_eq_none]
        intro x hx
        simpa using hk x (List.mem_reverse.1 hx)
      rw [hnone]
    · rintro k ⟨m, hm, hmk⟩
      show ∃ m ∈ list, m.Names.head? = some k ∧
        GoMap.get (collectMethods v.Methods list) k = some m
      rw [collectMethods_get]
      cases hf : list.reverse.find? (fun x => decide (x.Names.head? = some k)) with
      | none =>
        rw [List.find?_eq_none] at hf
        have := hf m (List.mem_reverse.2 hm)
        simp [hmk] at this
      | some x =>
        have hx := List.find?_some hf
        have hx' := List.mem_of_find?_eq_some hf
        exact ⟨x, List.mem_reverse.1 hx', by simpa using hx, rfl⟩
    · intro hnd m hm n hn
      exact collectMethods_get_of_mem v.Methods list hnd m hm n hn
    · exact collectMethods_nodup v.Methods list
  · intro name typ hne
    simp only [Visitor.Visit]
    exact if_pos hne

/-- Witness of `Visit_spec`: a type declaration with another name. -/
theorem Visit_spec_witness :
    Visitor.Visit { Methods := [] }
        (Node.TypeSpec "FullNode".toList (Expr.InterfaceType
          [{ Names := ["ChainNotify".toList], Typ := "func()".toList }])) =
      some { state := { Methods := [] }, ret := none } :=
  (Visit_spec { Methods := [] }).2.1 "FullNode".toList _ (by decide)

/-- C10, as stated, fails on a `StorageMiner` interface declaration: the value
returned by `Visit` is the visitor, not `nil`, so `ast.Walk` does descend into
the children of the node. -/
theorem Visit_storageMiner_counterexample :
    ∃ r, Visitor.Visit { Methods := [] }
        (Node.TypeSpec "StorageMiner".toList
          (Expr.InterfaceType [{ Names := ["ActorAddress".toList], Typ := "func()".toList },
            { Names := [], Typ := "Common".toList }])) = some r ∧
      r.state.Methods =
        [("ActorAddress".toList, { Names := ["ActorAddress".toList], Typ := "func()".toList })] ∧
      r.ret ≠ none :=
  ⟨_, rfl, by decide, by decide⟩

/-! ## `parseApiASTInfo` -/

theorem strings.HasPrefix_iff (s p : GoString) :
    strings.HasPrefix s p = true ↔ ∃ t, s = p ++ t := by
  induction p generalizing s with
  | nil => simp [strings.HasPrefix]
  | cons b p' ih =>
    cases s with
    | nil => simp [strings.HasPrefix]
    | cons a s' =>
      simp only [strings.HasPrefix, Bool.and_eq_true, beq_iff_eq, ih, List.cons_append,
        List.cons.injEq]
      constructor
      · rintro ⟨h, t, ht⟩
        exact ⟨t, h, ht⟩
      · rintro ⟨t, h, ht⟩
        exact ⟨h, t, ht⟩

theorem strings.Split_of_not_mem (s : GoString) (sep : Char) (h : sep ∉ s) :
    strings.Split s sep = [s] := by
  induction s with
  | nil => simp [strings.Split]
  | cons c cs ih =>
    have hc : ¬ c = sep := fun hc => h (hc ▸ List.mem_cons_self _ _)
    have hcs : sep ∉ cs := fun hcs => h (List.mem_cons_of_mem _ hcs)
    simp [strings.Split, hc, ih hcs]

theorem strings.Split_append (a b : GoString) (sep : Char) (h : sep ∉ a) :
    strings.Split (a ++ sep :: b) sep = a :: strings.Split b sep := by
  induction a with
  | nil => simp [strings.Split]
  | cons c cs ih =>
    have hc : ¬ c = sep := fun hc => h (hc ▸ List.mem_cons_self _ _)
    have hcs : sep ∉ cs := fun hcs => h (List.mem_cons_of_mem _ hcs)
    simp [strings.Split, hc, ih hcs]

theorem strings.Join_cons_cons (e e' : GoString) (rest : List GoString) (sep : GoString) :
    strings.Join (e :: e' :: rest) sep = e ++ sep ++ strings.Join (e' :: rest) sep := by
  simp [strings.Join]

theorem strings.Join_append_head (a b : GoString) (rest : List GoString) (sep : GoString) :
    strings.Join ((a ++ b) :: rest) sep = a ++ strings.Join (b :: rest) sep := by
  cases rest with
  | nil => simp [strings.Join]
  | cons e rest => simp [strings.Join_cons_cons]

theorem strings.Split_Join (first : GoString) (rest : List GoString) (sep : Char)
    (h : ∀ l ∈ first :: rest, sep ∉ l) :
    strings.Split (strings.Join (first :: rest) [sep]) sep = first :: rest := by
  induction rest generalizing first with
  | nil =>
    simp only [strings.Join]
    exact strings.Split_of_not_mem first sep (h first (List.mem_cons_self _ _))
  | cons e rest ih =>
    rw [strings.Join_cons_cons]
    have h1 : sep ∉ first := h first (List.mem_cons_self _ _)
    have h2 : ∀ l ∈ e :: rest, sep ∉ l := fun l hl => h l (List.mem_cons_of_mem _ hl)
    rw [List.append_assoc, List.singleton_append, strings.Split_append first _ sep h1, ih e h2]

theorem scanGroupDocs_first (tbl : UnicodeTables) (groupDocs : GoMap GoString)
    (pre post : List GoString) (c : GoString)
    (hpre : ∀ x ∈ pre, strings.HasPrefix x groupMarker = false)
    (hc : strings.HasPrefix c groupMarker = true) :
    scanGroupDocs tbl groupDocs (pre ++ c :: post) =
      GoMap.set groupDocs (strings.TrimSpace tbl (((strings.Split c '\n').headD []).drop 12))
        (strings.Join (strings.Split c '\n').tail "\n".toList) := by
  induction pre with
  | nil => simp [scanGroupDocs, hc]
  | cons x xs ih =>
    have hx : strings.HasPrefix x groupMarker = false := hpre x (List.mem_cons_self _ _)
    simp only [List.cons_append, scanGroupDocs, hx]
    exact ih (fun y hy => hpre y (List.mem_cons_of_mem _ hy))

theorem parseMethod_fst (tbl : UnicodeTables) (st : GoMap GoString × GoMap GoString)
    (mn : GoString) (cs : List GoString) :
    (parseMethod tbl st mn cs).1 = GoMap.set st.1 mn (methodComment cs) := by
  cases cs with
  | nil => simp [parseMethod, methodComment]
  | cons c rest => simp [parseMethod]

theorem parseMethod_snd (tbl : UnicodeTables) (st : GoMap GoString × GoMap GoString)
    (mn : GoString) (cs : List GoString) :
    (parseMethod tbl st mn cs).2 = scanGroupDocs tbl st.2 cs := by
  cases cs with
  | nil => simp [parseMethod, scanGroupDocs]
  | cons c rest => simp [parseMethod]

theorem parseApiASTInfo_append (tbl : UnicodeTables) (cmap : Field → List GoString)
    (before : List (GoString × Field)) (mn : GoString) (node : Field) :
    parseApiASTInfo tbl cmap (before ++ [(mn, node)]) =
      parseMethod tbl (parseApiASTInfo tbl cmap before) mn (cmap node) := by
  simp [parseApiASTInfo, List.foldl_append]

theorem parseFold_get (tbl : UnicodeTables) (cmap : Field → List GoString)
    (methods : List (GoString × Field)) (st : GoMap GoString × GoMap GoString)
    (hnd : (methods.map Prod.fst).Nodup) :
    (∀ k, k ∉ methods.map Prod.fst →
      GoMap.get (methods.foldl (fun st e => parseMethod tbl st e.1 (cmap e.2)) st).1 k =
        GoMap.get st.1 k) ∧
    (∀ e ∈ methods,
      GoMap.get (methods.foldl (fun st e => parseMethod tbl st e.1 (cmap e.2)) st).1 e.1 =
        some (methodComment (cmap e.2))) := by
  induction methods generalizing st with
  | nil => simp
  | cons e0 rest ih =>
    simp only [List.map_cons, List.nodup_cons] at hnd
    have ih' := ih (parseMethod tbl st e0.1 (cmap e0.2)) hnd.2
    constructor
    · intro k hk
      simp only [List.map_cons, List.mem_cons, not_or] at hk
      simp only [List.foldl_cons]
      rw [ih'.1 k hk.2, parseMethod_fst, GoMap.get_set]
      have : ¬ e0.1 = k := fun h => hk.1 h.symm
      simp [this]
    · intro e he
      simp only [List.foldl_cons]
      rcases List.mem_cons.1 he with h | h
      · subst h
        rw [ih'.1 e.1 hnd.1, parseMethod_fst, GoMap.get_set]
        simp
      · exact ih'.2 e h

theorem methodComment_concat (init : List GoString) (last : GoString) :
    methodComment (init ++ [last]) =
      if strings.HasPrefix last groupMarker then noComment else last := by
  simp only [methodComment, List.getLast?_concat]
  cases strings.HasPrefix last groupMarker <;> rfl

/-- C4. For a collected method `mn` with node `node` (the keys of `v.Methods`
are distinct), the comment that `parseApiASTInfo` records under `mn` is the
placeholder if the node has no comments, the placeholder if its last comment
starts with `"MethodGroup:"`, and the text of its last comment otherwise. -/
theorem parseApiASTInfo_comment (tbl : UnicodeTables) (cmap : Field → List GoString)
    (methods : List (GoString × Field)) (hnd : (methods.map Prod.fst).Nodup)
    (mn : GoString) (node : Field) (hmem : (mn, node) ∈ methods) :
    (cmap node = [] →
      GoMap.get (parseApiASTInfo tbl cmap methods).1 mn =
        some "There are not yet any comments for this method.".toList) ∧
    (∀ (init : List GoString) (last : GoString), cmap node = init ++ [last] →
      (∃ t, last = "MethodGroup:".toList ++ t) →
      GoMap.get (parseApiASTInfo tbl cmap methods).1 mn =
        some "There are not yet any comments for this method.".toList) ∧
    (∀ (init : List GoString) (last : GoString), cmap node = init ++ [last] →
      (¬ ∃ t, last = "MethodGroup:".toList ++ t) →
      GoMap.get (parseApiASTInfo tbl cmap methods).1 mn = some last) := by
  have h := (parseFold_get tbl cmap methods ([], []) hnd).2 (mn, node) hmem
  simp only at h
  refine ⟨?_, ?_, ?_⟩
  · intro hcs
    rw [parseApiASTInfo, h, hcs]
    rfl
  · intro init last hcs hp
    have hp' : strings.HasPrefix last groupMarker = true :=
      (strings.HasPrefix_iff last groupMarker).2 hp
    rw [parseApiASTInfo, h, hcs, methodComment_concat, hp']
    rfl
  · intro init last hcs hp
    have hp' : strings.HasPrefix last groupMarker = false := by
      cases hb : strings.HasPrefix last groupMarker with
      | false => rfl
      | true => exact absurd ((strings.HasPrefix_iff last groupMarker).1 hb) hp
    rw [parseApiASTInfo, h, hcs, methodComment_concat, hp']
    rfl

/-- Witness of `parseApiASTInfo_comment`: the method `SectorsList` with a group
marker followed by a doc comment. -/
theorem parseApiASTInfo_comment_witness :
    GoMap.get (parseApiASTInfo latin1Tables
        (fun _ => ["MethodGroup: Sectors\nabout sectors\n".toList, "lists the sectors\n".toList])
        [("SectorsList".toList, { Names := ["SectorsList".toList], Typ := "func()".toList })]).1
      "SectorsList".toList = some "lists the sectors\n".toList :=
  (parseApiASTInfo_comment latin1Tables
    (fun _ => ["MethodGroup: Sectors\nabout sectors\n".toList, "lists the sectors\n".toList])
    [("SectorsList".toList, { Names := ["SectorsList".toList], Typ := "func()".toList })]
    (by decide) "SectorsList".toList { Names := ["SectorsList".toList], Typ := "func()".toList }
    (by decide)).2.2 ["MethodGroup: Sectors\nabout sectors\n".toList]
    "lists the sectors\n".toList rfl
    (by
      rw [← strings.HasPrefix_iff]
      decide)

/-- C9, as the code has it. When the comments of a method contain a comment
that starts with `"MethodGroup:"`, `parseApiASTInfo` records, while it handles
that method, the description of the first such comment only: the group name is
the text after the marker on the comment's first line with the surrounding
white space trimmed, the header is the remaining lines joined by newlines, and
the comments after the first marker (further markers included) are not looked
at. -/
theorem parseApiASTInfo_groupDocs_first_marker (tbl : UnicodeTables)
    (cmap : Field → List GoString) (before : List (GoString × Field)) (mn : GoString)
    (node : Field) (pre post : List GoString) (nameText : GoString) (restLines : List GoString)
    (hcs : cmap node =
      pre ++ strings.Join (("MethodGroup:".toList ++ nameText) :: restLines) "\n".toList :: post)
    (hpre : ∀ x ∈ pre, ¬ ∃ t, x = "MethodGroup:".toList ++ t)
    (hlines : ∀ l ∈ nameText :: restLines, '\n' ∉ l) :
    (parseApiASTInfo tbl cmap (before ++ [(mn, node)])).2 =
      GoMap.set (parseApiASTInfo tbl cmap before).2 (strings.TrimSpace tbl nameText)
        (strings.Join restLines "\n".toList) ∧
    GoMap.get (parseApiASTInfo tbl cmap (before ++ [(mn, node)])).2
        (strings.TrimSpace tbl nameText) = some (strings.Join restLines "\n".toList) ∧
    (∀ k, k ≠ strings.TrimSpace tbl nameText →
      GoMap.get (parseApiASTInfo tbl cmap (before ++ [(mn, node)])).2 k =
        GoMap.get (parseApiASTInfo tbl cmap before).2 k) := by
  have hpre' : ∀ x ∈ pre, strings.HasPrefix x groupMarker = false := by
    intro x hx
    cases hb : strings.HasPrefix x groupMarker with
    | false => rfl
    | true => exact absurd ((strings.HasPrefix_iff x groupMarker).1 hb) (hpre x hx)
  have hjoin : strings.Join (("MethodGroup:".toList ++ nameText) :: restLines) "\n".toList =
      groupMarker ++ strings.Join (nameText :: restLines) "\n".toList :=
    strings.Join_append_head _ _ _ _
  have hc : strings.HasPrefix
      (strings.Join (("MethodGroup:".toList ++ nameText) :: restLines) "\n".toList)
      groupMarker = true := by
    rw [strings.HasPrefix_iff]
    exact ⟨_, hjoin⟩
  have hfirst : ∀ l ∈ ("MethodGroup:".toList ++ nameText) :: restLines, '\n' ∉ l := by
    intro l hl
    rcases List.mem_cons.1 hl with h | h
    · subst h
      intro hmem
      rcases List.mem_append.1 hmem with h1 | h1
      · revert h1
        decide
      · exact hlines nameText (List.mem_cons_self _ _) h1
    · exact hlines l (List.mem_cons_of_mem _ h)
  have hsplit := strings.Split_Join ("MethodGroup:".toList ++ nameText) restLines '\n' hfirst
  have hdrop : ("MethodGroup:".toList ++ nameText).drop 12 = nameText := by
    have hlen : "MethodGroup:".toList.length = 12 := by decide
    rw [List.drop_append_eq_append_drop, hlen]
    simp
  have key : (parseApiASTInfo tbl cmap (before ++ [(mn, node)])).2 =
      GoMap.set (parseApiASTInfo tbl cmap before).2 (strings.TrimSpace tbl nameText)
        (strings.Join restLines "\n".toList) := by
    rw [parseApiASTInfo_append, parseMethod_snd, hcs,
      scanGroupDocs_first tbl _ pre post _ hpre' hc]
    have hsplit' : strings.Split
        (strings.Join (("MethodGroup:".toList ++ nameText) :: restLines) "\n".toList) '\n' =
        ("MethodGroup:".toList ++ nameText) :: restLines := hsplit
    rw [hsplit']
    simp only [List.headD_cons, List.tail_cons, hdrop]
  refine ⟨key, ?_, ?_⟩
  · rw [key, GoMap.get_set]
    simp
  · intro k hk
    rw [key, GoMap.get_set]
    have : ¬ strings.TrimSpace tbl nameText = k := fun h => hk h.symm
    simp [this]

/-- Witness of `parseApiASTInfo_groupDocs_first_marker`: a doc comment, then a
marker for the group `Sectors` with a header of two lines, then a second
marker. -/
theorem parseApiASTInfo_groupDocs_first_marker_witness :
    GoMap.get (parseApiASTInfo latin1Tables
        (fun _ => ["a doc comment\n".toList, "MethodGroup: Sectors\nline one\nline two\n".toList,
          "MethodGroup: Other\nignored\n".toList])
        ([] ++ [("SectorsList".toList,
          { Names := ["SectorsList".toList], Typ := "func()".toList })])).2
      (strings.TrimSpace latin1Tables " Sectors".toList) =
        some (strings.Join ["line one".toList, "line two".toList, "".toList] "\n".toList) :=
  (parseApiASTInfo_groupDocs_first_marker latin1Tables
    (fun _ => ["a doc comment\n".toList, "MethodGroup: Sectors\nline one\nline two\n".toList,
      "MethodGroup: Other\nignored\n".toList])
    [] "SectorsList".toList { Names := ["SectorsList".toList], Typ := "func()".toList }
    ["a doc comment\n".toList] ["MethodGroup: Other\nignored\n".toList] " Sectors".toList
    ["line one".toList, "line two".toList, "".toList] (by decide)
    (by
      intro x hx
      rw [← strings.HasPrefix_iff]
      revert x
      decide)
    (by decide)).2.1

/-- C9, as stated, fails when two marker comments of one method declare the same
group: the description recorded for `Sectors` is the header of the first marker,
`"first\n"`, not that of the last, `"second\n"`. -/
theorem parseApiASTInfo_last_marker_counterexample :
    GoMap.get (parseApiASTInfo latin1Tables
        (fun _ => ["MethodGroup: Sectors\nfirst\n".toList, "MethodGroup: Sectors\nsecond\n".toList])
        [("SectorsList".toList, { Names := ["SectorsList".toList], Typ := "func()".toList })]).2
      "Sectors".toList = some "first\n".toList ∧
    GoMap.get (parseApiASTInfo latin1Tables
        (fun _ => ["MethodGroup: Sectors\nfirst\n".toList, "MethodGroup: Sectors\nsecond\n".toList])
        [("SectorsList".toList, { Names := ["SectorsList".toList], Typ := "func()".toList })]).2
      "Sectors".toList ≠ some "second\n".toList := by
  decide

/-! ## Sorting -/

theorem sort.Slice_perm {α : Type} (x : List α) (less : α → α → Bool) :
    (sort.Slice x less).Perm x :=
  List.perm_insertionSort _ x

theorem sort.Slice_sorted {α : Type} (key : α → GoString) (x : List α) :
    ((sort.Slice x (fun a b => decide (key a < key b))).map key).Sorted (· ≤ ·) := by
  have htotal : IsTotal α (fun a b => decide (key b < key a) = false) :=
    ⟨fun a b => by
      simp only [decide_eq_false_iff_not, not_lt]
      exact le_total (key a) (key b)⟩
  have htrans : IsTrans α (fun a b => decide (key b < key a) = false) :=
    ⟨fun a b c hab hbc => by
      simp only [decide_eq_false_iff_not, not_lt] at hab hbc ⊢
      exact le_trans hab hbc⟩
  have h := @List.sorted_insertionSort α (fun a b => decide (key b < key a) = false) _
    htotal htrans x
  rw [List.Sorted, List.pairwise_map]
  refine List.Pairwise.imp ?_ h
  intro a b hab
  simpa only [decide_eq_false_iff_not, not_lt] using hab

theorem map_eq_of_inj {α β : Type} (key : α → β) (y z : List α)
    (hinj : ∀ a ∈ y, ∀ b ∈ z, key a = key b → a = b) (h : y.map key = z.map key) :
    y = z := by
  induction y generalizing z with
  | nil =>
    cases z with
    | nil => rfl
    | cons b z => simp at h
  | cons a y ih =>
    cases z with
    | nil => simp at h
    | cons b z =>
      simp only [List.map_cons, List.cons.injEq] at h
      have hab : a = b := hinj a (List.mem_cons_self _ _) b (List.mem_cons_self _ _) h.1
      have hyz : y = z := ih z (fun a' ha' b' hb' =>
        hinj a' (List.mem_cons_of_mem _ ha') b' (List.mem_cons_of_mem _ hb')) h.2
      rw [hab, hyz]

/-- Sorting by a key is unique on slices whose elements with equal keys are
equal: every permutation of `x` that is sorted by the key is the slice that
`sort.Slice` returns. -/
theorem sorted_perm_unique {α : Type} (key : α → GoString) (x y : List α)
    (hinj : ∀ a ∈ x, ∀ b ∈ x, key a = key b → a = b) (hperm : y.Perm x)
    (hsorted : (y.map key).Sorted (· ≤ ·)) :
    y = sort.Slice x (fun a b => decide (key a < key b)) := by
  have hs := sort.Slice_sorted key x
  have hp : (sort.Slice x (fun a b => decide (key a < key b))).Perm x := sort.Slice_perm x _
  have hmap : y.map key = (sort.Slice x (fun a b => decide (key a < key b))).map key :=
    List.eq_of_perm_of_sorted ((hperm.trans hp.symm).map key) hsorted hs
  refine map_eq_of_inj key y _ ?_ hmap
  intro a ha b hb hab
  exact hinj a (hperm.mem_iff.1 ha) b (hp.mem_iff.1 hb) hab

/-! ## The grouping loop -/

theorem GoMap.mem_set {β : Type} (m : GoMap β) (k : GoString) (v : β) (e : GoString × β)
    (h : e ∈ GoMap.set m k v) : e = (k, v) ∨ e ∈ m := by
  induction m with
  | nil =>
    simp only [GoMap.set, List.mem_singleton] at h
    exact Or.inl h
  | cons e0 rest ih =>
    obtain ⟨k0, v0⟩ := e0
    by_cases h0 : k0 = k
    · simp only [GoMap.set, h0, if_true, List.mem_cons] at h
      rcases h with h | h
      · exact Or.inl h
      · exact Or.inr (List.mem_cons_of_mem _ h)
    · simp only [GoMap.set, h0, if_false, List.mem_cons] at h
      rcases h with h | h
      · exact Or.inr (h ▸ List.mem_cons_self _ _)
      · rcases ih h with h' | h'
        · exact Or.inl h'
        · exact Or.inr (List.mem_cons_of_mem _ h')

theorem addMethod_eq (tbl : UnicodeTables) (comments groupComments : GoMap GoString)
    (groups : GoMap MethodGroup) (name groupName : GoString)
    (h : methodGroupFromName tbl name = some groupName) :
    addMethod tbl comments groupComments groups name =
      some (GoMap.set groups groupName
        { groupFor groupComments groups groupName with
          Methods := (groupFor groupComments groups groupName).Methods ++
            [{ Name := name, Comment := GoMap.index comments name }] }) := by
  simp only [addMethod, h, groupFor]

theorem groupedNames_set (groupComments : GoMap GoString) (groups : GoMap MethodGroup)
    (k : GoString) (x : Method) :
    (groupedNames (GoMap.values (GoMap.set groups k
      { groupFor groupComments groups k with
        Methods := (groupFor groupComments groups k).Methods ++ [x] }))).Perm
      (groupedNames (GoMap.values groups) ++ [x.Name]) := by
  induction groups with
  | nil => simp [GoMap.set, GoMap.values, groupedNames, groupFor, GoMap.get]
  | cons e0 rest ih =>
    obtain ⟨k0, v0⟩ := e0
    by_cases h0 : k0 = k
    · subst h0
      simp only [GoMap.set, GoMap.values, groupedNames, groupFor, GoMap.get, if_true,
        List.map_cons, List.flatMap_cons, List.map_append, List.map_singleton,
        List.append_assoc]
      exact List.Perm.append_left _ List.perm_append_comm
    · have hfor : groupFor groupComments ((k0, v0) :: rest) k = groupFor groupComments rest k := by
        simp [groupFor, GoMap.get, h0]
      rw [hfor]
      simp only [GoMap.set, h0, if_false, GoMap.values, groupedNames, List.map_cons,
        List.flatMap_cons, List.append_assoc]
      exact List.Perm.append_left _ ih

theorem groupFor_inv (tbl : UnicodeTables) (comments groupComments : GoMap GoString)
    (groups : GoMap MethodGroup) (processed : List GoString) (k : GoString)
    (hinv : GroupsInv tbl comments groups processed) :
    (groupFor groupComments groups k).GroupName = k ∧
    ∀ m ∈ (groupFor groupComments groups k).Methods,
      methodGroupFromName tbl m.Name = some k ∧ m.Comment = GoMap.index comments m.Name := by
  unfold groupFor
  cases hget : GoMap.get groups k with
  | none => simp
  | some g =>
    have hmem := GoMap.mem_of_get groups k g hget
    exact ⟨hinv.name _ hmem, hinv.member _ hmem⟩

theorem addMethod_inv (tbl : UnicodeTables) (comments groupComments : GoMap GoString)
    (groups : GoMap MethodGroup) (processed : List GoString) (name : GoString)
    (hinv : GroupsInv tbl comments groups processed) (hne : name ≠ []) :
    ∃ groups', addMethod tbl comments groupComments groups name = some groups' ∧
      GroupsInv tbl comments groups' (processed ++ [name]) := by
  obtain ⟨k, hk⟩ := methodGroupFromName_returns tbl name hne
  refine ⟨_, addMethod_eq tbl comments groupComments groups name k hk, ?_⟩
  have hfor := groupFor_inv tbl comments groupComments groups processed k hinv
  constructor
  · exact GoMap.nodup_keys_set _ _ _ hinv.nodup
  · intro e he
    rcases GoMap.mem_set _ _ _ _ he with h | h
    · subst h
      exact hfor.1
    · exact hinv.name e h
  · intro e he m hm
    rcases GoMap.mem_set _ _ _ _ he with h | h
    · subst h
      simp only [List.mem_append, List.mem_singleton] at hm
      rcases hm with hm | hm
      · exact hfor.2 m hm
      · subst hm
        exact ⟨hk, rfl⟩
    · exact hinv.member e h m hm
  · exact (groupedNames_set groupComments groups k _).trans
      (List.Perm.append_right _ hinv.perm)

theorem buildGroups_inv (tbl : UnicodeTables) (comments groupComments : GoMap GoString)
    (groups : GoMap MethodGroup) (processed names : List GoString)
    (hinv : GroupsInv tbl comments groups processed) (hne : ∀ n ∈ names, n ≠ []) :
    ∃ groups', buildGroups tbl comments groupComments groups names = some groups' ∧
      GroupsInv tbl comments groups' (processed ++ names) := by
  induction names generalizing groups processed with
  | nil => exact ⟨groups, rfl, by simpa using hinv⟩
  | cons n rest ih =>
    obtain ⟨g1, h1, hinv1⟩ := addMethod_inv tbl comments groupComments groups processed n hinv
      (hne n (List.mem_cons_self _ _))
    obtain ⟨g2, h2, hinv2⟩ := ih g1 (processed ++ [n]) hinv1
      (fun x hx => hne x (List.mem_cons_of_mem _ hx))
    refine ⟨g2, ?_, by simpa using hinv2⟩
    simp only [buildGroups, h1, h2]

theorem GroupsInv.empty (tbl : UnicodeTables) (comments : GoMap GoString) :
    GroupsInv tbl comments [] [] :=
  ⟨List.nodup_nil, by simp, by simp, by simp [groupedNames, GoMap.values]⟩

/-! ## The output loop -/

theorem emitMethods_append (methods : GoMap Record) (a b : List Method) :
    emitMethods methods (a ++ b) = emitMethods (emitMethods methods a) b := by
  induction a generalizing methods with
  | nil => rfl
  | cons m rest ih =>
    show emitMethods (GoMap.set methods m.Name (makeRecord m.Name)) (rest ++ b) = _
    rw [ih]
    rfl

theorem emitMethods_get (methods : GoMap Record) (ms : List Method) (k : GoString) :
    GoMap.get (emitMethods methods ms) k =
      if k ∈ ms.map Method.Name then some (makeRecord k) else GoMap.get methods k := by
  induction ms generalizing methods with
  | nil => simp [emitMethods]
  | cons m rest ih =>
    simp only [emitMethods, ih, GoMap.get_set, List.map_cons, List.mem_cons]
    by_cases h1 : k ∈ rest.map Method.Name
    · simp [h1]
    · by_cases h2 : m.Name = k
      · simp [h1, h2]
      · have h3 : ¬ k = m.Name := fun h => h2 h.symm
        simp [h1, h2, h3]

theorem emitMethods_keys (methods : GoMap Record) (ms : List Method) (k : GoString) :
    k ∈ GoMap.keys (emitMethods methods ms) ↔
      k ∈ GoMap.keys methods ∨ k ∈ ms.map Method.Name := by
  induction ms generalizing methods with
  | nil => simp [emitMethods]
  | cons m rest ih =>
    simp only [emitMethods, ih, GoMap.mem_keys_set, List.map_cons, List.mem_cons]
    tauto

theorem emitMethods_nodup (methods : GoMap Record) (ms : List Method)
    (h : (GoMap.keys methods).Nodup) : (GoMap.keys (emitMethods methods ms)).Nodup := by
  induction ms generalizing methods with
  | nil => simpa [emitMethods] using h
  | cons m rest ih =>
    simp only [emitMethods]
    exact ih _ (GoMap.nodup_keys_set methods _ _ h)

theorem emitGroups_fst (methods : GoMap Record) (groupslice : List MethodGroup) :
    (emitGroups methods groupslice).1 =
      groupslice.map (fun g =>
        { g with Methods := sort.Slice g.Methods (fun a b => decide (a.Name < b.Name)) }) := by
  induction groupslice generalizing methods with
  | nil => rfl
  | cons g rest ih => simp only [emitGroups, ih, List.map_cons]

theorem emitGroups_snd (methods : GoMap Record) (groupslice : List MethodGroup) :
    (emitGroups methods groupslice).2 =
      emitMethods methods (groupslice.flatMap (fun g =>
        sort.Slice g.Methods (fun a b => decide (a.Name < b.Name)))) := by
  induction groupslice generalizing methods with
  | nil => rfl
  | cons g rest ih => simp only [emitGroups, ih, List.flatMap_cons, emitMethods_append]

/-- The names that the output loop writes are those of the groups after the
loop. -/
theorem emitted_names (groupslice : List MethodGroup) :
    (groupslice.flatMap (fun g =>
      sort.Slice g.Methods (fun a b => decide (a.Name < b.Name)))).map Method.Name =
    groupedNames (groupslice.map (fun g =>
      { g with Methods := sort.Slice g.Methods (fun a b => decide (a.Name < b.Name)) })) := by
  simp only [groupedNames, List.map_flatMap, List.flatMap_map]

theorem groupedNames_sorted_perm (groupslice : List MethodGroup) :
    (groupedNames (groupslice.map (fun g =>
      { g with Methods := sort.Slice g.Methods (fun a b => decide (a.Name < b.Name)) }))).Perm
      (groupedNames groupslice) := by
  simp only [groupedNames, List.flatMap_map]
  refine List.Perm.flatMap_left groupslice ?_
  intro g _
  exact (sort.Slice_perm g.Methods _).map Method.Name

/-- What `main` computes: the groups built by the first loop, permuted by
`range`, sorted, and handed to the output loop. -/
theorem main_eq (tbl : UnicodeTables) (rangeOrder : List MethodGroup → List MethodGroup)
    (hro : ∀ l, (rangeOrder l).Perm l) (comments groupComments : GoMap GoString)
    (names : List GoString) (hne : ∀ n ∈ names, n ≠ []) :
    ∃ (groups : GoMap MethodGroup) (groupslice : List MethodGroup),
      GroupsInv tbl comments groups names ∧
      groupslice.Perm (GoMap.values groups) ∧
      (groupslice.map MethodGroup.GroupName).Sorted (· ≤ ·) ∧
      main tbl rangeOrder comments groupComments names =
        some (groupslice.map (fun g =>
            { g with Methods := sort.Slice g.Methods (fun a b => decide (a.Name < b.Name)) }),
          emitMethods [] (groupslice.flatMap (fun g =>
            sort.Slice g.Methods (fun a b => decide (a.Name < b.Name))))) := by
  obtain ⟨groups, hb, hinv⟩ := buildGroups_inv tbl comments groupComments [] [] names
    (GroupsInv.empty tbl comments) hne
  refine ⟨groups, sort.Slice (rangeOrder (GoMap.values groups))
    (fun a b => decide (a.GroupName < b.GroupName)), by simpa using hinv, ?_, ?_, ?_⟩
  · exact (sort.Slice_perm _ _).trans (hro _)
  · exact sort.Slice_sorted MethodGroup.GroupName _
  · simp only [main, hb]
    rw [← emitGroups_fst [], ← emitGroups_snd []]

/-- The names in the groups after the last loop of `main` are a permutation of
the enumerated names. -/
theorem main_names_perm (tbl : UnicodeTables) (comments : GoMap GoString)
    (groups : GoMap MethodGroup) (groupslice : List MethodGroup) (names : List GoString)
    (hinv : GroupsInv tbl comments groups names) (hperm : groupslice.Perm (GoMap.values groups)) :
    (groupedNames (groupslice.map (fun g =>
      { g with Methods := sort.Slice g.Methods (fun a b => decide (a.Name < b.Name)) }))).Perm
      names := by
  refine (groupedNames_sorted_perm groupslice).trans ?_
  refine List.Perm.trans ?_ hinv.perm
  exact List.Perm.flatMap_right _ hperm

/-- C1. The map that `main` emits has exactly the enumerated names as its keys:
every enumerated name is a key, every key is an enumerated name, and no key
occurs twice, for every comment map, every map of group descriptions and every
order of `range`. -/
theorem main_keys (tbl : UnicodeTables) (rangeOrder : List MethodGroup → List MethodGroup)
    (hro : ∀ l, (rangeOrder l).Perm l) (comments groupComments : GoMap GoString)
    (names : List GoString) (hne : ∀ n ∈ names, n ≠ []) :
    ∃ (gs : List MethodGroup) (out : GoMap Record),
      main tbl rangeOrder comments groupComments names = some (gs, out) ∧
      (∀ n ∈ names, n ∈ GoMap.keys out) ∧
      (∀ k ∈ GoMap.keys out, k ∈ names) ∧
      (GoMap.keys out).Nodup ∧
      (∀ n ∈ names, ∃ r, GoMap.get out n = some r) ∧
      (∀ k, k ∉ names → GoMap.get out k = none) := by
  obtain ⟨groups, groupslice, hinv, hperm, _, hmain⟩ :=
    main_eq tbl rangeOrder hro comments groupComments names hne
  have hnames := main_names_perm tbl comments groups groupslice names hinv hperm
  rw [← emitted_names] at hnames
  have hkeys : ∀ k, k ∈ GoMap.keys (emitMethods [] (groupslice.flatMap (fun g =>
      sort.Slice g.Methods (fun a b => decide (a.Name < b.Name))))) ↔ k ∈ names := by
    intro k
    rw [emitMethods_keys, hnames.mem_iff]
    simp [GoMap.keys]
  refine ⟨_, _, hmain, fun n hn => (hkeys n).2 hn, fun k hk => (hkeys k).1 hk,
    emitMethods_nodup [] _ List.nodup_nil, ?_, ?_⟩
  · intro n hn
    rw [emitMethods_get, if_pos (hnames.mem_iff.2 hn)]
    exact ⟨_, rfl⟩
  · intro k hk
    rw [GoMap.get_eq_none_iff]
    exact fun h => hk ((hkeys k).1 h)

/-- Witness of `main_keys`: the methods `SectorsList` and `GetInfo` without
comments, with `range` visiting the groups in reverse. -/
theorem main_keys_witness :
    ∃ (gs : List MethodGroup) (out : GoMap Record),
      main latin1Tables List.reverse [] [] ["SectorsList".toList, "GetInfo".toList] =
        some (gs, out) ∧
      (∀ n ∈ ["SectorsList".toList, "GetInfo".toList], n ∈ GoMap.keys out) ∧
      (∀ k ∈ GoMap.keys out, k ∈ ["SectorsList".toList, "GetInfo".toList]) ∧
      (GoMap.keys out).Nodup ∧
      (∀ n ∈ ["SectorsList".toList, "GetInfo".toList], ∃ r, GoMap.get out n = some r) ∧
      (∀ k, k ∉ ["SectorsList".toList, "GetInfo".toList] → GoMap.get out k = none) :=
  main_keys latin1Tables List.reverse (fun l => List.reverse_perm l) [] []
    ["SectorsList".toList, "GetInfo".toList] (by decide)

/-- C2. In the map that `main` emits, the record of the enumerated name
`"ChainNotify"` is `{"subscription": true}` and the record of every other
enumerated name is the empty object. -/
theorem main_records (tbl : UnicodeTables) (rangeOrder : List MethodGroup → List MethodGroup)
    (hro : ∀ l, (rangeOrder l).Perm l) (comments groupComments : GoMap GoString)
    (names : List GoString) (hne : ∀ n ∈ names, n ≠ []) :
    ∃ (gs : List MethodGroup) (out : GoMap Record),
      main tbl rangeOrder comments groupComments names = some (gs, out) ∧
      ("ChainNotify".toList ∈ names →
        GoMap.get out "ChainNotify".toList = some [("subscription".toList, true)]) ∧
      (∀ n ∈ names, n ≠ "ChainNotify".toList → GoMap.get out n = some []) := by
  obtain ⟨groups, groupslice, hinv, hperm, _, hmain⟩ :=
    main_eq tbl rangeOrder hro comments groupComments names hne
  have hnames := main_names_perm tbl comments groups groupslice names hinv hperm
  rw [← emitted_names] at hnames
  refine ⟨_, _, hmain, ?_, ?_⟩
  · intro hn
    rw [emitMethods_get, if_pos (hnames.mem_iff.2 hn)]
    rfl
  · intro n hn hne'
    rw [emitMethods_get, if_pos (hnames.mem_iff.2 hn)]
    simp only [makeRecord, hne', if_false]

/-- Witness of `main_records`: an enumeration that contains `ChainNotify`. -/
theorem main_records_witness :
    ∃ (gs : List MethodGroup) (out : GoMap Record),
      main latin1Tables id [] [] ["ChainNotify".toList, "GetInfo".toList] = some (gs, out) ∧
      ("ChainNotify".toList ∈ ["ChainNotify".toList, "GetInfo".toList] →
        GoMap.get out "ChainNotify".toList = some [("subscription".toList, true)]) ∧
      (∀ n ∈ ["ChainNotify".toList, "GetInfo".toList], n ≠ "ChainNotify".toList →
        GoMap.get out n = some []) :=
  main_records latin1Tables id (fun l => List.Perm.refl l) [] []
    ["ChainNotify".toList, "GetInfo".toList] (by decide)

theorem directFold_get (names : List GoString) (methods : GoMap Record) (k : GoString) :
    GoMap.get (names.foldl (fun methods n =>
      GoMap.set methods n
        (if n = "ChainNotify".toList then [("subscription".toList, true)] else [])) methods) k =
      if k ∈ names then some (makeRecord k) else GoMap.get methods k := by
  induction names generalizing methods with
  | nil => simp
  | cons n rest ih =>
    simp only [List.foldl_cons, ih, GoMap.get_set, List.mem_cons]
    by_cases h1 : k ∈ rest
    · simp [h1]
    · by_cases h2 : n = k
      · subst h2
        simp only [h1, if_false, if_true, or_false]
        rfl
      · have h3 : ¬ k = n := fun h => h2 h.symm
        simp [h1, h2, h3]

theorem directFold_nodup (names : List GoString) (methods : GoMap Record)
    (h : (GoMap.keys methods).Nodup) :
    (GoMap.keys (names.foldl (fun methods n =>
      GoMap.set methods n
        (if n = "ChainNotify".toList then [("subscription".toList, true)] else []))
      methods)).Nodup := by
  induction names generalizing methods with
  | nil => simpa using h
  | cons n rest ih =>
    simp only [List.foldl_cons]
    exact ih _ (GoMap.nodup_keys_set methods _ _ h)

theorem GoMap.perm_of_get_eq {β : Type} (m1 m2 : GoMap β) (h1 : (GoMap.keys m1).Nodup)
    (h2 : (GoMap.keys m2).Nodup) (h : ∀ k, GoMap.get m1 k = GoMap.get m2 k) : m1.Perm m2 := by
  rw [List.perm_ext_iff_of_nodup (List.Nodup.of_map Prod.fst h1) (List.Nodup.of_map Prod.fst h2)]
  rintro ⟨k, v⟩
  constructor
  · intro hm
    have := GoMap.get_of_mem m1 k v h1 hm
    rw [h k] at this
    exact GoMap.mem_of_get m2 k v this
  · intro hm
    have := GoMap.get_of_mem m2 k v h2 hm
    rw [← h k] at this
    exact GoMap.mem_of_get m1 k v this

theorem marshalOrder_congr (m1 m2 : GoMap Record) (h1 : (GoMap.keys m1).Nodup)
    (h2 : (GoMap.keys m2).Nodup) (h : ∀ k, GoMap.get m1 k = GoMap.get m2 k) :
    marshalOrder m1 = marshalOrder m2 := by
  refine sorted_perm_unique Prod.fst m2 (marshalOrder m1) ?_ ?_ ?_
  · rintro ⟨k, v⟩ ha ⟨k', v'⟩ hb hk
    simp only at hk
    subst hk
    have e1 := GoMap.get_of_mem m2 k v h2 ha
    have e2 := GoMap.get_of_mem m2 k v' h2 hb
    rw [e1] at e2
    rw [Option.some.inj e2]
  · exact (sort.Slice_perm m1 _).trans (GoMap.perm_of_get_eq m1 m2 h1 h2 h)
  · exact sort.Slice_sorted Prod.fst m1

/-- The map that `main` emits, key by key. -/
theorem main_out (tbl : UnicodeTables) (rangeOrder : List MethodGroup → List MethodGroup)
    (hro : ∀ l, (rangeOrder l).Perm l) (comments groupComments : GoMap GoString)
    (names : List GoString) (hne : ∀ n ∈ names, n ≠ []) :
    ∃ (gs : List MethodGroup) (out : GoMap Record),
      main tbl rangeOrder comments groupComments names = some (gs, out) ∧
      (GoMap.keys out).Nodup ∧
      ∀ k, GoMap.get out k = if k ∈ names then some (makeRecord k) else none := by
  obtain ⟨groups, groupslice, hinv, hperm, _, hmain⟩ :=
    main_eq tbl rangeOrder hro comments groupComments names hne
  have hnames := main_names_perm tbl comments groups groupslice names hinv hperm
  rw [← emitted_names] at hnames
  refine ⟨_, _, hmain, emitMethods_nodup [] _ List.nodup_nil, ?_⟩
  intro k
  rw [emitMethods_get]
  by_cases hk : k ∈ names
  · rw [if_pos (hnames.mem_iff.2 hk), if_pos hk]
  · rw [if_neg (fun h => hk (hnames.mem_iff.1 h)), if_neg hk]
    rfl

/-- C5. The map that `main` emits depends on the set of enumerated names only:
two runs whose enumerations contain the same names, in any order, with any
comment maps, any maps of group descriptions and any orders of `range`, emit
equal maps (key by key, and entry by entry in the order of `json.Marshal`),
and these equal the mapping built directly from the names. -/
theorem main_depends_on_names_only (tbl : UnicodeTables)
    (rangeOrder1 rangeOrder2 : List MethodGroup → List MethodGroup)
    (hro1 : ∀ l, (rangeOrder1 l).Perm l) (hro2 : ∀ l, (rangeOrder2 l).Perm l)
    (comments1 groupComments1 comments2 groupComments2 : GoMap GoString)
    (names1 names2 : List GoString) (hne : ∀ n ∈ names1, n ≠ [])
    (hsame : ∀ n, n ∈ names1 ↔ n ∈ names2) :
    ∃ (gs1 gs2 : List MethodGroup) (out1 out2 : GoMap Record),
      main tbl rangeOrder1 comments1 groupComments1 names1 = some (gs1, out1) ∧
      main tbl rangeOrder2 comments2 groupComments2 names2 = some (gs2, out2) ∧
      (∀ k, GoMap.get out1 k = GoMap.get out2 k) ∧
      (∀ k, GoMap.get out1 k = GoMap.get (directMapping names1) k) ∧
      marshalOrder out1 = marshalOrder out2 ∧
      marshalOrder out1 = marshalOrder (directMapping names1) := by
  have hne2 : ∀ n ∈ names2, n ≠ [] := fun n hn => hne n ((hsame n).2 hn)
  obtain ⟨gs1, out1, hm1, hnd1, hget1⟩ :=
    main_out tbl rangeOrder1 hro1 comments1 groupComments1 names1 hne
  obtain ⟨gs2, out2, hm2, hnd2, hget2⟩ :=
    main_out tbl rangeOrder2 hro2 comments2 groupComments2 names2 hne2
  have h12 : ∀ k, GoMap.get out1 k = GoMap.get out2 k := by
    intro k
    rw [hget1, hget2]
    by_cases hk : k ∈ names1
    · rw [if_pos hk, if_pos ((hsame k).1 hk)]
    · rw [if_neg hk, if_neg (fun h => hk ((hsame k).2 h))]
  have h1d : ∀ k, GoMap.get out1 k = GoMap.get (directMapping names1) k := by
    intro k
    rw [hget1, directMapping, directFold_get]
    rfl
  refine ⟨gs1, gs2, out1, out2, hm1, hm2, h12, h1d, ?_, ?_⟩
  · exact marshalOrder_congr out1 out2 hnd1 hnd2 h12
  · exact marshalOrder_congr out1 _ hnd1 (directFold_nodup names1 [] List.nodup_nil) h1d

/-- Witness of `main_depends_on_names_only`: the same three names enumerated in
two orders, one name twice, with different comment maps and different orders of
`range`. -/
theorem main_depends_on_names_only_witness :
    ∃ (gs1 gs2 : List MethodGroup) (out1 out2 : GoMap Record),
      main latin1Tables id [("GetInfo".toList, "about".toList)] []
        ["SectorsList".toList, "GetInfo".toList, "ChainNotify".toList] = some (gs1, out1) ∧
      main latin1Tables List.reverse [] [("Get".toList, "the getters".toList)]
        ["ChainNotify".toList, "GetInfo".toList, "SectorsList".toList, "GetInfo".toList] =
          some (gs2, out2) ∧
      (∀ k, GoMap.get out1 k = GoMap.get out2 k) ∧
      (∀ k, GoMap.get out1 k = GoMap.get
        (directMapping ["SectorsList".toList, "GetInfo".toList, "ChainNotify".toList]) k) ∧
      marshalOrder out1 = marshalOrder out2 ∧
      marshalOrder out1 = marshalOrder
        (directMapping ["SectorsList".toList, "GetInfo".toList, "ChainNotify".toList]) :=
  main_depends_on_names_only latin1Tables id List.reverse (fun l => List.Perm.refl l)
    (fun l => List.reverse_perm l) [("GetInfo".toList, "about".toList)] [] []
    [("Get".toList, "the getters".toList)]
    ["SectorsList".toList, "GetInfo".toList, "ChainNotify".toList]
    ["ChainNotify".toList, "GetInfo".toList, "SectorsList".toList, "GetInfo".toList]
    (by decide) (by
      intro n
      simp only [List.mem_cons, List.mem_singleton, List.not_mem_nil, or_false]
      tauto)

theorem GroupsInv.groupNames (tbl : UnicodeTables) (comments : GoMap GoString)
    (groups : GoMap MethodGroup) (names : List GoString)
    (hinv : GroupsInv tbl comments groups names) :
    (GoMap.values groups).map MethodGroup.GroupName = GoMap.keys groups := by
  simp only [GoMap.values, GoMap.keys, List.map_map]
  refine List.map_congr_left ?_
  intro e he
  exact hinv.name e he

/-- The two slices that `main` sorts have no two different elements with the
same key: group names are distinct, and methods of one name are equal. -/
theorem GroupsInv.equal_keys (tbl : UnicodeTables) (comments : GoMap GoString)
    (groups : GoMap MethodGroup) (names : List GoString)
    (hinv : GroupsInv tbl comments groups names) :
    (∀ a ∈ GoMap.values groups, ∀ b ∈ GoMap.values groups,
      a.GroupName = b.GroupName → a = b) ∧
    (∀ g ∈ GoMap.values groups, ∀ a ∈ g.Methods, ∀ b ∈ g.Methods,
      a.Name = b.Name → a = b) := by
  constructor
  · intro a ha b hb hab
    have hnd : ((GoMap.values groups).map MethodGroup.GroupName).Nodup := by
      rw [GroupsInv.groupNames tbl comments groups names hinv]
      exact hinv.nodup
    exact List.inj_on_of_nodup_map hnd ha hb hab
  · intro g hg a ha b hb hab
    obtain ⟨e, he, rfl⟩ := List.mem_map.1 hg
    have h1 := (hinv.member e he a ha).2
    have h2 := (hinv.member e he b hb).2
    rw [hab] at h1
    cases a
    cases b
    simp only at hab h1 h2
    simp only [Method.mk.injEq]
    exact ⟨h1.trans h2.symm, hab⟩

/-- C7. After the grouping and sorting of `main`: the names in the groups are a
permutation of the enumerated names; every enumerated name is in exactly one
group, the one whose `GroupName` is `methodGroupFromName` of the name; every
method of a group belongs there; in every group the methods are in ascending
order of `Name`; the groups are in strictly ascending order of `GroupName`;
and the names without a second capital are in the group whose name is empty. -/
theorem main_groups (tbl : UnicodeTables) (rangeOrder : List MethodGroup → List MethodGroup)
    (hro : ∀ l, (rangeOrder l).Perm l) (comments groupComments : GoMap GoString)
    (names : List GoString) (hne : ∀ n ∈ names, n ≠ []) :
    ∃ (gs : List MethodGroup) (out : GoMap Record),
      main tbl rangeOrder comments groupComments names = some (gs, out) ∧
      (gs.flatMap (fun g => g.Methods.map Method.Name)).Perm names ∧
      (∀ n ∈ names, ∃ g ∈ gs, n ∈ g.Methods.map Method.Name ∧
        methodGroupFromName tbl n = some g.GroupName ∧
        ∀ g' ∈ gs, n ∈ g'.Methods.map Method.Name → g' = g) ∧
      (∀ g ∈ gs, ∀ m ∈ g.Methods, methodGroupFromName tbl m.Name = some g.GroupName) ∧
      (∀ g ∈ gs, (g.Methods.map Method.Name).Sorted (· ≤ ·)) ∧
      (gs.map MethodGroup.GroupName).Sorted (· < ·) ∧
      (∀ n ∈ names, (∀ c ∈ n.tail, unicode.IsUpper tbl c = false) →
        ∃ g ∈ gs, g.GroupName = [] ∧ n ∈ g.Methods.map Method.Name) := by
  obtain ⟨groups, groupslice, hinv, hperm, hsorted, hmain⟩ :=
    main_eq tbl rangeOrder hro comments groupComments names hne
  have hnames := main_names_perm tbl comments groups groupslice names hinv hperm
  -- the groups after the loop
  generalize hgs : groupslice.map (fun g : MethodGroup =>
    { g with Methods := sort.Slice g.Methods (fun a b => decide (a.Name < b.Name)) }) = gs
    at hmain hnames
  have hmem : ∀ g ∈ gs, ∃ g0 ∈ groupslice, g.GroupName = g0.GroupName ∧
      g.Methods = sort.Slice g0.Methods (fun a b => decide (a.Name < b.Name)) := by
    intro g hg
    rw [← hgs] at hg
    obtain ⟨g0, hg0, rfl⟩ := List.mem_map.1 hg
    exact ⟨g0, hg0, rfl, rfl⟩
  have hgn : gs.map MethodGroup.GroupName = groupslice.map MethodGroup.GroupName := by
    rw [← hgs, List.map_map]
    rfl
  have hnd : (gs.map MethodGroup.GroupName).Nodup := by
    rw [hgn, (hperm.map MethodGroup.GroupName).nodup_iff,
      GroupsInv.groupNames tbl comments groups names hinv]
    exact hinv.nodup
  have hmember : ∀ g ∈ gs, ∀ m ∈ g.Methods,
      methodGroupFromName tbl m.Name = some g.GroupName := by
    intro g hg m hm
    obtain ⟨g0, hg0, hname, hms⟩ := hmem g hg
    rw [hms] at hm
    have hm0 : m ∈ g0.Methods := (sort.Slice_perm _ _).mem_iff.1 hm
    have hg0' : g0 ∈ GoMap.values groups := hperm.mem_iff.1 hg0
    obtain ⟨e, he, rfl⟩ := List.mem_map.1 hg0'
    rw [hname, hinv.name e he]
    exact (hinv.member e he m hm0).1
  have hexists : ∀ n ∈ names, ∃ g ∈ gs, n ∈ g.Methods.map Method.Name ∧
      methodGroupFromName tbl n = some g.GroupName ∧
      ∀ g' ∈ gs, n ∈ g'.Methods.map Method.Name → g' = g := by
    intro n hn
    have hn' : n ∈ groupedNames gs := hnames.mem_iff.2 hn
    obtain ⟨g, hg, hng⟩ := List.mem_flatMap.1 hn'
    obtain ⟨m, hm, rfl⟩ := List.mem_map.1 hng
    refine ⟨g, hg, hng, hmember g hg m hm, ?_⟩
    intro g' hg' hng'
    obtain ⟨m', hm', hmm⟩ := List.mem_map.1 hng'
    have h1 := hmember g hg m hm
    have h2 := hmember g' hg' m' hm'
    rw [hmm, h1] at h2
    exact List.inj_on_of_nodup_map hnd hg' hg (Option.some.inj h2).symm
  refine ⟨gs, _, hmain, hnames, hexists, hmember, ?_, ?_, ?_⟩
  · intro g hg
    obtain ⟨g0, _, _, hms⟩ := hmem g hg
    rw [hms]
    exact sort.Slice_sorted Method.Name g0.Methods
  · rw [hgn] at hnd ⊢
    exact hsorted.lt_of_le hnd
  · intro n hn hup
    obtain ⟨g, hg, hng, hgrp, _⟩ := hexists n hn
    have hempty := (methodGroupFromName_eq_nil_iff tbl n (hne n hn)).2 hup
    rw [hempty] at hgrp
    exact ⟨g, hg, (Option.some.inj hgrp).symm, hng⟩

/-- Witness of `main_groups`: five names, two of them in the group `Get` and one
without a second capital, with `range` visiting the groups in reverse. -/
theorem main_groups_witness :
    main latin1Tables List.reverse [] []
      ["SectorsList".toList, "GetInfo".toList, "ChainNotify".toList, "Version".toList,
        "GetAll".toList] =
      some
        ([{ GroupName := [], Header := [],
            Methods := [{ Comment := [], Name := "Version".toList }] },
          { GroupName := "Chain".toList, Header := [],
            Methods := [{ Comment := [], Name := "ChainNotify".toList }] },
          { GroupName := "Get".toList, Header := [],
            Methods := [{ Comment := [], Name := "GetAll".toList },
              { Comment := [], Name := "GetInfo".toList }] },
          { GroupName := "Sectors".toList, Header := [],
            Methods := [{ Comment := [], Name := "SectorsList".toList }] }],
         [("Version".toList, []),
          ("ChainNotify".toList, [("subscription".toList, true)]),
          ("GetAll".toList, []), ("GetInfo".toList, []), ("SectorsList".toList, [])]) ∧
    ∃ (gs : List MethodGroup) (out : GoMap Record),
      main latin1Tables List.reverse [] []
        ["SectorsList".toList, "GetInfo".toList, "ChainNotify".toList, "Version".toList,
          "GetAll".toList] = some (gs, out) ∧
      (gs.map MethodGroup.GroupName).Sorted (· < ·) :=
  ⟨by decide,
    (main_groups latin1Tables List.reverse (fun l => List.reverse_perm l) [] []
      ["SectorsList".toList, "GetInfo".toList, "ChainNotify".toList, "Version".toList,
        "GetAll".toList] (by decide)).imp
      (fun _ h => h.imp (fun _ h' => ⟨h'.1, h'.2.2.2.2.2.1⟩))⟩

/-- The comment of every `Method` that `main` builds is `comments[m.Name]`: the
comment recorded for the name if the comment map has one, and the empty string
if the name is absent from the map. -/
theorem main_method_comments (tbl : UnicodeTables)
    (rangeOrder : List MethodGroup → List MethodGroup) (hro : ∀ l, (rangeOrder l).Perm l)
    (comments groupComments : GoMap GoString) (names : List GoString)
    (hne : ∀ n ∈ names, n ≠ []) :
    ∃ (gs : List MethodGroup) (out : GoMap Record),
      main tbl rangeOrder comments groupComments names = some (gs, out) ∧
      ∀ g ∈ gs, ∀ m ∈ g.Methods,
        (∀ c, GoMap.get comments m.Name = some c → m.Comment = c) ∧
        (GoMap.get comments m.Name = none → m.Comment = []) := by
  obtain ⟨groups, groupslice, hinv, hperm, _, hmain⟩ :=
    main_eq tbl rangeOrder hro comments groupComments names hne
  refine ⟨_, _, hmain, ?_⟩
  intro g hg m hm
  obtain ⟨g0, hg0, rfl⟩ := List.mem_map.1 hg
  have hm0 : m ∈ g0.Methods := (sort.Slice_perm _ _).mem_iff.1 hm
  obtain ⟨e, he, rfl⟩ := List.mem_map.1 (hperm.mem_iff.1 hg0)
  have hc := (hinv.member e he m hm0).2
  constructor
  · intro c hget
    rw [hc, GoMap.index, hget]
  · intro hget
    rw [hc, GoMap.index, hget]

/-- C6, at a name that the comment map does not contain. The interface declares
`ActorAddress` without comments and embeds an interface with the method
`AuthNew`; `parseApiASTInfo` records the placeholder for `ActorAddress` and
nothing for `AuthNew`, and the `Method` that `main` builds for `AuthNew` has
the empty string as its `Comment`, not the placeholder. -/
theorem main_comment_of_absent_name :
    GoMap.get (parseApiASTInfo latin1Tables (fun _ => [])
      [("ActorAddress".toList, { Names := ["ActorAddress".toList], Typ := "func()".toList })]).1
      "AuthNew".toList = none ∧
    (main latin1Tables id
      (parseApiASTInfo latin1Tables (fun _ => [])
        [("ActorAddress".toList, { Names := ["ActorAddress".toList], Typ := "func()".toList })]).1
      (parseApiASTInfo latin1Tables (fun _ => [])
        [("ActorAddress".toList, { Names := ["ActorAddress".toList], Typ := "func()".toList })]).2
      ["ActorAddress".toList, "AuthNew".toList]).map Prod.fst =
      some
        [{ GroupName := "Actor".toList, Header := [],
           Methods := [{ Comment := "There are not yet any comments for this method.".toList,
                         Name := "ActorAddress".toList }] },
         { GroupName := "Auth".toList, Header := [],
           Methods := [{ Comment := [], Name := "AuthNew".toList }] }] := by
  decide

end Schemagen
